import Mathlib

/-!
Verification of `TaggedCache` (`taggedcache.py`), a tag-indexed caching
layer over a redis-like store.  The store state is embedded shallowly:
plain keyed entries plus named set collections, with every pipelined
method modelled as a queue of write commands computed from eager reads of
the pre-pipeline state, exactly as the class issues them.
-/

/-! ### Enumeration order

Python iterates redis set members in an unspecified order.  The model
fixes a concrete total order on strings (length-free lexicographic order
on the character data) purely to enumerate members deterministically;
every property proved below is independent of this choice.  The order is
written with structural recursion so that concrete instances evaluate
inside the kernel. -/

/-- Lexicographic comparison of character lists by code point. -/
def lexLeB : List Char → List Char → Bool
  | [], _ => true
  | _ :: _, [] => false
  | a :: as, b :: bs =>
    if a.toNat < b.toNat then true
    else if b.toNat < a.toNat then false
    else lexLeB as bs

/-- The enumeration order on strings: lexicographic on the underlying
character data. -/
def strLe (a b : String) : Prop := lexLeB a.data b.data = true

instance : DecidableRel strLe := fun a b => inferInstanceAs (Decidable (_ = true))

theorem lexLeB_total : ∀ x y, lexLeB x y = true ∨ lexLeB y x = true
  | [], _ => Or.inl rfl
  | _ :: _, [] => Or.inr rfl
  | a :: as, b :: bs => by
    rcases Nat.lt_trichotomy a.toNat b.toNat with h | h | h
    · left; simp [lexLeB, h]
    · rcases lexLeB_total as bs with ih | ih
      · left; simp [lexLeB, h, ih]
      · right; simp [lexLeB, h.symm, ih]
    · right; simp [lexLeB, h]

theorem lexLeB_trans :
    ∀ x y z, lexLeB x y = true → lexLeB y z = true → lexLeB x z = true
  | [], _, _, _, _ => rfl
  | _ :: _, [], _, hxy, _ => by simp [lexLeB] at hxy
  | _ :: _, _ :: _, [], _, hyz => by simp [lexLeB] at hyz
  | a :: as, b :: bs, c :: cs, hxy, hyz => by
    simp only [lexLeB] at hxy hyz ⊢
    rcases Nat.lt_trichotomy a.toNat b.toNat with h1 | h1 | h1
    · rcases Nat.lt_trichotomy b.toNat c.toNat with h2 | h2 | h2
      · simp [show a.toNat < c.toNat by omega]
      · simp [show a.toNat < c.toNat by omega]
      · simp [show ¬ b.toNat < c.toNat by omega, h2] at hyz
    · rcases Nat.lt_trichotomy b.toNat c.toNat with h2 | h2 | h2
      · simp [show a.toNat < c.toNat by omega]
      · have hxy' : lexLeB as bs = true := by
          simpa [show ¬ a.toNat < b.toNat by omega,
            show ¬ b.toNat < a.toNat by omega] using hxy
        have hyz' : lexLeB bs cs = true := by
          simpa [show ¬ b.toNat < c.toNat by omega,
            show ¬ c.toNat < b.toNat by omega] using hyz
        simp [show ¬ a.toNat < c.toNat by omega, show ¬ c.toNat < a.toNat by omega,
          lexLeB_trans as bs cs hxy' hyz']
      · simp [show ¬ b.toNat < c.toNat by omega, h2] at hyz
    · simp [show ¬ a.toNat < b.toNat by omega, h1] at hxy

theorem charToNat_inj {a b : Char} (h : a.toNat = b.toNat) : a = b :=
  Char.ext (UInt32.ext h)

theorem lexLeB_antisymm :
    ∀ x y, lexLeB x y = true → lexLeB y x = true → x = y
  | [], [], _, _ => rfl
  | [], _ :: _, _, hyx => by simp [lexLeB] at hyx
  | _ :: _, [], hxy, _ => by simp [lexLeB] at hxy
  | a :: as, b :: bs, hxy, hyx => by
    simp only [lexLeB] at hxy hyx
    rcases Nat.lt_trichotomy a.toNat b.toNat with h | h | h
    · simp [show ¬ b.toNat < a.toNat by omega, h] at hyx
    · have hxy' : lexLeB as bs = true := by
        simpa [show ¬ a.toNat < b.toNat by omega,
          show ¬ b.toNat < a.toNat by omega] using hxy
      have hyx' : lexLeB bs as = true := by
        simpa [show ¬ b.toNat < a.toNat by omega,
          show ¬ a.toNat < b.toNat by omega] using hyx
      rw [charToNat_inj h, lexLeB_antisymm as bs hxy' hyx']
    · simp [show ¬ a.toNat < b.toNat by omega, h] at hxy

instance : IsTotal String strLe := ⟨fun a b => lexLeB_total a.data b.data⟩

instance : IsTrans String strLe :=
  ⟨fun a b c => lexLeB_trans a.data b.data c.data⟩

instance : IsAntisymm String strLe :=
  ⟨fun a b h h' => String.ext (lexLeB_antisymm a.data b.data h h')⟩

/-- Deterministic enumeration of a finite set of strings, in `strLe`
order.  Stands in for iterating the result of `smembers`. -/
def sortedMembers (t : Finset String) : List String :=
  Quot.liftOn t.val (fun l => l.insertionSort strLe) fun a b h =>
    List.eq_of_perm_of_sorted
      ((List.perm_insertionSort _ _).trans (h.trans (List.perm_insertionSort _ _).symm))
      (List.sorted_insertionSort strLe a) (List.sorted_insertionSort strLe b)

theorem mem_sortedMembers {t : Finset String} {x : String} :
    x ∈ sortedMembers t ↔ x ∈ t := by
  rcases t with ⟨m, hm⟩
  induction m using Quotient.inductionOn with
  | h l =>
    show x ∈ l.insertionSort strLe ↔ _
    rw [(List.perm_insertionSort strLe l).mem_iff]
    rfl

theorem sortedMembers_nodup (t : Finset String) : (sortedMembers t).Nodup := by
  rcases t with ⟨m, hm⟩
  induction m using Quotient.inductionOn with
  | h l =>
    exact ((List.perm_insertionSort strLe l).nodup_iff).mpr hm

theorem sortedMembers_empty : sortedMembers ∅ = [] := rfl

/-! ### The store -/

/-- Names of the set-valued collections the façade keeps in the store: the
two roots `CacheKeys` and `Tags`, plus the derived collections
`tags-by-key:<key>` and `keys-by-tag:<tag>`.  The constructors mirror the
string naming convention of the source (the two prefixes are distinct and
appending a prefix is injective, so collection names never collide). -/
inductive SetName
  | cacheKeys
  | tags
  | tagsByKey (key : String)
  | keysByTag (tag : String)
deriving DecidableEq

/-- Visible state of the underlying store, per the interface contract:
plain keyed entries (get/set/delete/exists) and named set collections
(sadd/srem/smembers/scard/delete).  As in redis, a collection that is
empty is indistinguishable from an absent one, so collections are total
functions with `∅` for absent. -/
structure Store where
  strings : String → Option String
  sets : SetName → Finset String

theorem Store.ext' {s t : Store} (h1 : s.strings = t.strings)
    (h2 : s.sets = t.sets) : s = t := by
  cases s; cases t; simp_all

/-- The store with no entries and no collections. -/
def Store.empty : Store := ⟨fun _ => none, fun _ => ∅⟩

/-- One queued command of a redis pipeline, as issued by the class:
set-member addition and removal, whole-collection deletion, plain-key
write and plain-key deletion.  (`expire` merely arms store-side expiry;
its eventual effect is an out-of-band plain-key deletion, which the
theorems model by quantifying over pre-states.) -/
inductive Op
  | sadd (n : SetName) (m : String)
  | srem (n : SetName) (m : String)
  | sdel (n : SetName)
  | setStr (key value : String)
  | delStr (key : String)
deriving DecidableEq

/-- Execute one command against the store. -/
def Store.apply (s : Store) : Op → Store
  | .sadd n m => { s with sets := Function.update s.sets n (insert m (s.sets n)) }
  | .srem n m => { s with sets := Function.update s.sets n ((s.sets n).erase m) }
  | .sdel n => { s with sets := Function.update s.sets n ∅ }
  | .setStr k v => { s with strings := Function.update s.strings k (some v) }
  | .delStr k => { s with strings := Function.update s.strings k none }

/-- Execute a pipeline: the queued commands in order. -/
def Store.applyAll (s : Store) (ops : List Op) : Store := ops.foldl Store.apply s

/-- Enumerate the members of a collection (the smembers read), in the
fixed enumeration order. -/
def Store.smembers (s : Store) (n : SetName) : List String :=
  sortedMembers (s.sets n)

/-! ### The TaggedCache methods

Each method is a pure function of the store state.  Pipelined methods
first perform their eager reads against the incoming state, queue their
write commands, and execute the queue at the end — exactly the order in
which the source issues commands, since nothing in a pipeline is applied
before `execute()`. -/

namespace TaggedCache

/-- The pipeline queued by `set`: for each tag in the given order
(duplicates included), `sadd tags-by-key:key tag`, `sadd keys-by-tag:tag
key`, `sadd Tags tag`; then `sadd CacheKeys key` and the plain-key write.
A ttl argument only schedules store-side expiry of the plain key and has
no immediately visible effect, so it does not appear in the state. -/
def setOps (key value : String) (tags : List String) : List Op :=
  (tags.flatMap fun tag =>
    [.sadd (.tagsByKey key) tag, .sadd (.keysByTag tag) key, .sadd .tags tag])
    ++ [.sadd .cacheKeys key, .setStr key value]

/-- Add or update a cache entry. -/
def set (s : Store) (key value : String) (tags : List String) : Store :=
  s.applyAll (setOps key value tags)

/-- The removals `gc` queues for one candidate key, all decided by eager
reads of the pre-pipeline state `s`: nothing if the plain key still
exists, otherwise `srem CacheKeys key`, one `srem keys-by-tag:tag key`
for every tag in `tags-by-key:key`, and deletion of `tags-by-key:key`. -/
def gcKeyOps (s : Store) (key : String) : List Op :=
  if s.strings key = none then
    .srem .cacheKeys key ::
      ((s.smembers (.tagsByKey key)).map fun tag => Op.srem (.keysByTag tag) key)
      ++ [.sdel (.tagsByKey key)]
  else []

/-- The removals `gc` queues for one candidate tag: nothing unless the
cardinality of `keys-by-tag:tag` — read eagerly against the pre-pipeline
state — is zero, otherwise `srem Tags tag` and deletion of the set. -/
def gcTagOps (s : Store) (tag : String) : List Op :=
  if (s.sets (.keysByTag tag)).card = 0 then
    [.srem .tags tag, .sdel (.keysByTag tag)]
  else []

/-- Candidate keys of a sweep: an empty (or omitted) `keys` argument
falls back to the whole `CacheKeys` membership (`keys = keys or []`
collapses `None` and an empty collection alike). -/
def gcCandidateKeys (s : Store) (keys : List String) : List String :=
  if keys.isEmpty then s.smembers .cacheKeys else keys

/-- Candidate tags of a sweep: an empty (or omitted) `tags` argument
falls back to the whole `Tags` membership. -/
def gcCandidateTags (s : Store) (tags : List String) : List String :=
  if tags.isEmpty then s.smembers .tags else tags

/-- The whole queue of one sweep: the key-sweep removals for every
candidate key, then the tag-sweep removals for every candidate tag. -/
def gcOps (s : Store) (keys : List String) (tags : List String) : List Op :=
  (gcCandidateKeys s keys).flatMap (gcKeyOps s)
    ++ (gcCandidateTags s tags).flatMap (gcTagOps s)

/-- Reconciliation sweep.  All decisions are made by eager reads of the
incoming state; the queued removals are executed together at the end. -/
def gc (s : Store) (keys : List String) (tags : List String) : Store :=
  s.applyAll (gcOps s keys tags)

/-- Return a cached value, or `none` if not found; on a miss with `gc`
enabled, first run reconciliation scoped to this one key. -/
def get (s : Store) (key : String) (gc : Bool) : Option String × Store :=
  let value := s.strings key
  if value = none ∧ gc = true then (value, TaggedCache.gc s [key] [])
  else (value, s)

/-- Return all tags used by a key. -/
def get_tags (s : Store) (key : String) : Finset String :=
  s.sets (.tagsByKey key)

/-- Return all cache keys carrying a given tag. -/
def get_keys (s : Store) (tag : String) : Finset String :=
  s.sets (.keysByTag tag)

/-- Remove a single key from the cache: delete the plain key, then
reconcile scoped to it. -/
def clear (s : Store) (key : String) : Store :=
  TaggedCache.gc (s.apply (.delStr key)) [key] []

/-- The pipeline queued by `clear_tag`: deletion of every member key's
plain entry (the deleted-keys read), then deletion of the
`keys-by-tag:tag` set itself. -/
def clearTagOps (s : Store) (tag : String) : List Op :=
  ((s.smembers (.keysByTag tag)).map Op.delStr) ++ [.sdel (.keysByTag tag)]

/-- Invalidate a whole tag: read the members of `keys-by-tag:tag`, queue
deletion of every member's plain key and of the set itself, execute, then
reconcile scoped to the deleted keys. -/
def clear_tag (s : Store) (tag : String) : Store :=
  TaggedCache.gc (s.applyAll (clearTagOps s tag)) (s.smembers (.keysByTag tag)) []

/-- The pipeline queued by `clear_all`: for every key in `CacheKeys`
delete the plain key and its `tags-by-key` set, delete every
`keys-by-tag` set named in `Tags`, then delete the two roots. -/
def clearAllOps (s : Store) : List Op :=
  ((s.smembers .cacheKeys).flatMap fun key => [.delStr key, .sdel (.tagsByKey key)])
    ++ ((s.smembers .tags).map fun tag => Op.sdel (.keysByTag tag))
    ++ [.sdel .cacheKeys, .sdel .tags]

/-- Delete all cache entries and reset the tag sets. -/
def clear_all (s : Store) : Store :=
  s.applyAll (clearAllOps s)

end TaggedCache

/-! ### Pipeline lemmas -/

/-- Effect of one command on one plain key's value. -/
def Op.strEffect (op : Op) (k : String) (cur : Option String) : Option String :=
  match op with
  | .setStr k' v => if k = k' then some v else cur
  | .delStr k' => if k = k' then none else cur
  | _ => cur

/-- Effect of one command on one collection. -/
def Op.setEffect (op : Op) (n : SetName) (cur : Finset String) : Finset String :=
  match op with
  | .sadd n' m => if n = n' then insert m cur else cur
  | .srem n' m => if n = n' then cur.erase m else cur
  | .sdel n' => if n = n' then ∅ else cur
  | _ => cur

theorem Store.applyAll_nil (s : Store) : s.applyAll [] = s := rfl

theorem Store.applyAll_cons (s : Store) (op : Op) (ops : List Op) :
    s.applyAll (op :: ops) = (s.apply op).applyAll ops := rfl

theorem Store.applyAll_append (s : Store) (l1 l2 : List Op) :
    s.applyAll (l1 ++ l2) = (s.applyAll l1).applyAll l2 := by
  simp [Store.applyAll, List.foldl_append]

theorem Store.apply_strings (s : Store) (op : Op) (k : String) :
    (s.apply op).strings k = op.strEffect k (s.strings k) := by
  cases op <;> simp [Store.apply, Op.strEffect, Function.update_apply]

theorem Store.apply_sets (s : Store) (op : Op) (n : SetName) :
    (s.apply op).sets n = op.setEffect n (s.sets n) := by
  cases op <;>
    simp only [Store.apply, Op.setEffect, Function.update_apply] <;>
    split <;> simp_all

theorem Store.applyAll_strings (s : Store) (ops : List Op) (k : String) :
    (s.applyAll ops).strings k
      = ops.foldl (fun cur op => op.strEffect k cur) (s.strings k) := by
  induction ops generalizing s with
  | nil => rfl
  | cons op ops ih =>
    rw [Store.applyAll_cons, ih, List.foldl_cons, Store.apply_strings]

theorem Store.applyAll_sets (s : Store) (ops : List Op) (n : SetName) :
    (s.applyAll ops).sets n
      = ops.foldl (fun cur op => op.setEffect n cur) (s.sets n) := by
  induction ops generalizing s with
  | nil => rfl
  | cons op ops ih =>
    rw [Store.applyAll_cons, ih, List.foldl_cons, Store.apply_sets]

/-- Commands that write a plain key. -/
def Op.touchesStrings : Op → Bool
  | .setStr _ _ => true
  | .delStr _ => true
  | _ => false

theorem Store.applyAll_strings_of_no_touch {ops : List Op}
    (h : ∀ op ∈ ops, op.touchesStrings = false) (s : Store) (k : String) :
    (s.applyAll ops).strings k = s.strings k := by
  induction ops generalizing s with
  | nil => rfl
  | cons op ops ih =>
    rw [Store.applyAll_cons, ih fun o ho => h o (List.mem_cons_of_mem _ ho)]
    have hop := h op (List.mem_cons_self op ops)
    cases op <;> simp_all [Store.apply, Op.touchesStrings]

/-- Commands that add a member to a collection. -/
def Op.isSadd : Op → Bool
  | .sadd _ _ => true
  | _ => false

/-- The removal a command performs on the member `x` of collection `n`,
if any. -/
def Op.Removes (op : Op) (n : SetName) (x : String) : Prop :=
  match op with
  | .srem n' m => n' = n ∧ m = x
  | .sdel n' => n' = n
  | _ => False

/-- For a single command that is not a member addition, a member survives
iff the command does not remove it. -/
theorem Store.mem_apply_sets {op : Op} (hop : op.isSadd = false)
    (s : Store) (n : SetName) (x : String) :
    x ∈ (s.apply op).sets n ↔ x ∈ s.sets n ∧ ¬ op.Removes n x := by
  cases op with
  | sadd n' m => simp [Op.isSadd] at hop
  | srem n' m =>
    by_cases hn : n = n'
    · subst hn
      simp only [Store.apply_sets, Op.setEffect, if_true, eq_self_iff_true,
        Finset.mem_erase, Op.Removes, true_and, ite_true]
      constructor
      · rintro ⟨hne, hx⟩; exact ⟨hx, fun hc => hne hc.symm⟩
      · rintro ⟨hx, hne⟩; exact ⟨fun hc => hne hc.symm, hx⟩
    · simp only [Store.apply_sets, Op.setEffect, if_neg hn, Op.Removes]
      constructor
      · exact fun hx => ⟨hx, fun hc => hn hc.1.symm⟩
      · exact fun h => h.1
  | sdel n' =>
    by_cases hn : n = n'
    · subst hn
      simp [Store.apply_sets, Op.setEffect, Op.Removes]
    · simp only [Store.apply_sets, Op.setEffect, if_neg hn, Op.Removes]
      constructor
      · exact fun hx => ⟨hx, fun hc => hn hc.symm⟩
      · exact fun h => h.1
  | setStr k v => simp [Store.apply, Op.Removes]
  | delStr k => simp [Store.apply, Op.Removes]

/-- For a pipeline that never adds set members, a member survives iff no
queued command removes it. -/
theorem Store.mem_applyAll_sets {ops : List Op}
    (h : ∀ op ∈ ops, op.isSadd = false) (s : Store) (n : SetName) (x : String) :
    x ∈ (s.applyAll ops).sets n
      ↔ x ∈ s.sets n ∧ ∀ op ∈ ops, ¬ op.Removes n x := by
  induction ops generalizing s with
  | nil => simp [Store.applyAll]
  | cons op ops ih =>
    rw [Store.applyAll_cons, ih fun o ho => h o (List.mem_cons_of_mem _ ho),
      Store.mem_apply_sets (h op (List.mem_cons_self op ops))]
    simp only [List.forall_mem_cons]
    tauto

/-! ### Characterization of one sweep -/

namespace TaggedCache

theorem mem_gcKeyOps {s : Store} {key : String} {op : Op} :
    op ∈ gcKeyOps s key
      ↔ s.strings key = none ∧
          (op = .srem .cacheKeys key
            ∨ (∃ tag ∈ s.sets (.tagsByKey key), op = .srem (.keysByTag tag) key)
            ∨ op = .sdel (.tagsByKey key)) := by
  unfold gcKeyOps
  split
  · rename_i h
    simp only [h, true_and, List.mem_cons, List.mem_append, List.mem_map,
      List.mem_singleton, List.not_mem_nil, or_false,
      Store.smembers, mem_sortedMembers]
    constructor
    · rintro ((rfl | ⟨tag, htag, rfl⟩) | rfl)
      · exact Or.inl rfl
      · exact Or.inr (Or.inl ⟨tag, htag, rfl⟩)
      · exact Or.inr (Or.inr rfl)
    · rintro (rfl | ⟨tag, htag, rfl⟩ | rfl)
      · exact Or.inl (Or.inl rfl)
      · exact Or.inl (Or.inr ⟨tag, htag, rfl⟩)
      · exact Or.inr rfl
  · rename_i h
    simp [h]

theorem mem_gcTagOps {s : Store} {tag : String} {op : Op} :
    op ∈ gcTagOps s tag
      ↔ s.sets (.keysByTag tag) = ∅ ∧
          (op = .srem .tags tag ∨ op = .sdel (.keysByTag tag)) := by
  by_cases hc : (s.sets (.keysByTag tag)).card = 0
  · rw [gcTagOps, if_pos hc]
    simp [Finset.card_eq_zero.mp hc]
  · rw [gcTagOps, if_neg hc]
    have hne : ¬ s.sets (.keysByTag tag) = ∅ := fun he => hc (by simp [he])
    simp [hne]

theorem gcOps_no_sadd (s : Store) (keys tags : List String) :
    ∀ op ∈ gcOps s keys tags, op.isSadd = false := by
  intro op hop
  rcases List.mem_append.mp hop with hop | hop
  · rcases List.mem_flatMap.mp hop with ⟨key, _, hopk⟩
    rcases (mem_gcKeyOps.mp hopk).2 with h | ⟨t, _, h⟩ | h <;> subst h <;> rfl
  · rcases List.mem_flatMap.mp hop with ⟨t, _, hopt⟩
    rcases (mem_gcTagOps.mp hopt).2 with h | h <;> subst h <;> rfl

theorem gcOps_no_touch (s : Store) (keys tags : List String) :
    ∀ op ∈ gcOps s keys tags, op.touchesStrings = false := by
  intro op hop
  rcases List.mem_append.mp hop with hop | hop
  · rcases List.mem_flatMap.mp hop with ⟨key, _, hopk⟩
    rcases (mem_gcKeyOps.mp hopk).2 with h | ⟨t, _, h⟩ | h <;> subst h <;> rfl
  · rcases List.mem_flatMap.mp hop with ⟨t, _, hopt⟩
    rcases (mem_gcTagOps.mp hopt).2 with h | h <;> subst h <;> rfl

/-- A sweep never writes or deletes any plain key: primary values are
untouched by `gc`, whatever its arguments. -/
theorem gc_strings (s : Store) (keys tags : List String) (k : String) :
    (gc s keys tags).strings k = s.strings k :=
  Store.applyAll_strings_of_no_touch (gcOps_no_touch s keys tags) s k

theorem mem_gc_cacheKeys (s : Store) (keys tags : List String) (x : String) :
    x ∈ (gc s keys tags).sets .cacheKeys
      ↔ x ∈ s.sets .cacheKeys
          ∧ ¬(x ∈ gcCandidateKeys s keys ∧ s.strings x = none) := by
  rw [gc, Store.mem_applyAll_sets (gcOps_no_sadd s keys tags)]
  refine and_congr_right fun _ => ?_
  constructor
  · intro h hc
    exact h (Op.srem .cacheKeys x)
      (List.mem_append.mpr (Or.inl (List.mem_flatMap.mpr
        ⟨x, hc.1, mem_gcKeyOps.mpr ⟨hc.2, Or.inl rfl⟩⟩))) ⟨rfl, rfl⟩
  · intro hne op hop hrem
    rcases List.mem_append.mp hop with hop | hop
    · rcases List.mem_flatMap.mp hop with ⟨key, hkey, hopk⟩
      rcases mem_gcKeyOps.mp hopk with ⟨horph, h | ⟨t, _, h⟩ | h⟩ <;> subst h
      · exact hne ⟨hrem.2 ▸ hkey, hrem.2 ▸ horph⟩
      · simp [Op.Removes] at hrem
      · simp [Op.Removes] at hrem
    · rcases List.mem_flatMap.mp hop with ⟨t, _, hopt⟩
      rcases mem_gcTagOps.mp hopt with ⟨_, h | h⟩ <;> subst h <;>
        simp [Op.Removes] at hrem

theorem mem_gc_tags (s : Store) (keys tags : List String) (x : String) :
    x ∈ (gc s keys tags).sets .tags
      ↔ x ∈ s.sets .tags
          ∧ ¬(x ∈ gcCandidateTags s tags ∧ s.sets (.keysByTag x) = ∅) := by
  rw [gc, Store.mem_applyAll_sets (gcOps_no_sadd s keys tags)]
  refine and_congr_right fun _ => ?_
  constructor
  · intro h hc
    exact h (Op.srem .tags x)
      (List.mem_append.mpr (Or.inr (List.mem_flatMap.mpr
        ⟨x, hc.1, mem_gcTagOps.mpr ⟨hc.2, Or.inl rfl⟩⟩))) ⟨rfl, rfl⟩
  · intro hne op hop hrem
    rcases List.mem_append.mp hop with hop | hop
    · rcases List.mem_flatMap.mp hop with ⟨key, hkey, hopk⟩
      rcases mem_gcKeyOps.mp hopk with ⟨horph, h | ⟨t, _, h⟩ | h⟩ <;> subst h <;>
        simp [Op.Removes] at hrem
    · rcases List.mem_flatMap.mp hop with ⟨t, ht, hopt⟩
      rcases mem_gcTagOps.mp hopt with ⟨hdead, h | h⟩ <;> subst h
      · exact hne ⟨hrem.2 ▸ ht, hrem.2 ▸ hdead⟩
      · simp [Op.Removes] at hrem

theorem mem_gc_tagsByKey (s : Store) (keys tags : List String) (k x : String) :
    x ∈ (gc s keys tags).sets (.tagsByKey k)
      ↔ x ∈ s.sets (.tagsByKey k)
          ∧ ¬(k ∈ gcCandidateKeys s keys ∧ s.strings k = none) := by
  rw [gc, Store.mem_applyAll_sets (gcOps_no_sadd s keys tags)]
  refine and_congr_right fun _ => ?_
  constructor
  · intro h hc
    exact h (Op.sdel (.tagsByKey k))
      (List.mem_append.mpr (Or.inl (List.mem_flatMap.mpr
        ⟨k, hc.1, mem_gcKeyOps.mpr ⟨hc.2, Or.inr (Or.inr rfl)⟩⟩))) rfl
  · intro hne op hop hrem
    rcases List.mem_append.mp hop with hop | hop
    · rcases List.mem_flatMap.mp hop with ⟨key, hkey, hopk⟩
      rcases mem_gcKeyOps.mp hopk with ⟨horph, h | ⟨t, _, h⟩ | h⟩ <;> subst h
      · simp [Op.Removes] at hrem
      · simp [Op.Removes] at hrem
      · simp only [Op.Removes, SetName.tagsByKey.injEq] at hrem
        exact hne (hrem ▸ ⟨hkey, horph⟩)
    · rcases List.mem_flatMap.mp hop with ⟨t, _, hopt⟩
      rcases mem_gcTagOps.mp hopt with ⟨_, h | h⟩ <;> subst h <;>
        simp [Op.Removes] at hrem

theorem mem_gc_keysByTag (s : Store) (keys tags : List String) (t x : String) :
    x ∈ (gc s keys tags).sets (.keysByTag t)
      ↔ x ∈ s.sets (.keysByTag t)
          ∧ ¬(x ∈ gcCandidateKeys s keys ∧ s.strings x = none
                ∧ t ∈ s.sets (.tagsByKey x)) := by
  rw [gc, Store.mem_applyAll_sets (gcOps_no_sadd s keys tags)]
  constructor
  · rintro ⟨hx, h⟩
    refine ⟨hx, fun hc => ?_⟩
    exact h (Op.srem (.keysByTag t) x)
      (List.mem_append.mpr (Or.inl (List.mem_flatMap.mpr
        ⟨x, hc.1, mem_gcKeyOps.mpr
          ⟨hc.2.1, Or.inr (Or.inl ⟨t, hc.2.2, rfl⟩)⟩⟩))) ⟨rfl, rfl⟩
  · rintro ⟨hx, hne⟩
    refine ⟨hx, fun op hop hrem => ?_⟩
    rcases List.mem_append.mp hop with hop | hop
    · rcases List.mem_flatMap.mp hop with ⟨key, hkey, hopk⟩
      rcases mem_gcKeyOps.mp hopk with ⟨horph, h | ⟨tg, htg, h⟩ | h⟩ <;> subst h
      · simp [Op.Removes] at hrem
      · simp only [Op.Removes, SetName.keysByTag.injEq] at hrem
        obtain ⟨ht', hkx⟩ := hrem
        subst hkx
        exact hne ⟨hkey, horph, ht' ▸ htg⟩
      · simp [Op.Removes] at hrem
    · rcases List.mem_flatMap.mp hop with ⟨tg, _, hopt⟩
      rcases mem_gcTagOps.mp hopt with ⟨hdead, h | h⟩ <;> subst h
      · simp [Op.Removes] at hrem
      · simp only [Op.Removes, SetName.keysByTag.injEq] at hrem
        subst hrem
        exact absurd (hdead ▸ hx) (Finset.not_mem_empty x)

end TaggedCache

/-! ### Effect of `set` -/

/-- Commands that remove set members or whole collections. -/
def Op.removesSets : Op → Bool
  | .srem _ _ => true
  | .sdel _ => true
  | _ => false

theorem Store.mem_apply_sets_of_add {op : Op} (hop : op.removesSets = false)
    (s : Store) (n : SetName) (x : String) :
    x ∈ (s.apply op).sets n ↔ x ∈ s.sets n ∨ op = .sadd n x := by
  cases op with
  | sadd n' m =>
    by_cases hn : n = n'
    · subst hn
      simp [Store.apply_sets, Op.setEffect, Finset.mem_insert, Op.sadd.injEq,
        or_comm, eq_comm]
    · simp only [Store.apply_sets, Op.setEffect, if_neg hn, Op.sadd.injEq]
      constructor
      · exact Or.inl
      · rintro (hx | ⟨hn', _⟩)
        · exact hx
        · exact absurd hn'.symm hn
  | srem n' m => simp [Op.removesSets] at hop
  | sdel n' => simp [Op.removesSets] at hop
  | setStr k v => simp [Store.apply]
  | delStr k => simp [Store.apply]

theorem Store.mem_applyAll_sets_of_add {ops : List Op}
    (h : ∀ op ∈ ops, op.removesSets = false) (s : Store) (n : SetName)
    (x : String) :
    x ∈ (s.applyAll ops).sets n
      ↔ x ∈ s.sets n ∨ ∃ op ∈ ops, op = .sadd n x := by
  induction ops generalizing s with
  | nil => simp [Store.applyAll]
  | cons op ops ih =>
    rw [Store.applyAll_cons, ih fun o ho => h o (List.mem_cons_of_mem _ ho),
      Store.mem_apply_sets_of_add (h op (List.mem_cons_self op ops))]
    simp only [List.mem_cons]
    constructor
    · rintro ((hx | hadd) | ⟨o, ho, rfl⟩)
      · exact Or.inl hx
      · exact Or.inr ⟨op, Or.inl rfl, hadd⟩
      · exact Or.inr ⟨_, Or.inr ho, rfl⟩
    · rintro (hx | ⟨o, rfl | ho, rfl⟩)
      · exact Or.inl (Or.inl hx)
      · exact Or.inl (Or.inr rfl)
      · exact Or.inr ⟨_, ho, rfl⟩

namespace TaggedCache

theorem setOps_no_removal (key value : String) (tags : List String) :
    ∀ op ∈ setOps key value tags, op.removesSets = false := by
  intro op hop
  rcases List.mem_append.mp hop with hop | hop
  · rcases List.mem_flatMap.mp hop with ⟨t, _, hopt⟩
    simp only [List.mem_cons, List.not_mem_nil, or_false] at hopt
    rcases hopt with rfl | rfl | rfl <;> rfl
  · simp only [List.mem_cons, List.not_mem_nil, or_false] at hop
    rcases hop with rfl | rfl <;> rfl

theorem setOps_no_touch_front (key value : String) (tags : List String) :
    ∀ op ∈ tags.flatMap fun tag =>
      [Op.sadd (.tagsByKey key) tag, Op.sadd (.keysByTag tag) key,
        Op.sadd .tags tag],
      op.touchesStrings = false := by
  intro op hop
  rcases List.mem_flatMap.mp hop with ⟨t, _, hopt⟩
  simp only [List.mem_cons, List.not_mem_nil, or_false] at hopt
  rcases hopt with rfl | rfl | rfl <;> rfl

/-- The plain-key effect of `set`: exactly the written key gets the new
value. -/
theorem set_strings (s : Store) (key value : String) (tags : List String)
    (k : String) :
    (set s key value tags).strings k
      = if k = key then some value else s.strings k := by
  rw [set, setOps, Store.applyAll_append, Store.applyAll_cons,
    Store.applyAll_cons, Store.applyAll_nil]
  show (((s.applyAll _).apply _).apply (Op.setStr key value)).strings k = _
  rw [Store.apply_strings, Store.apply_strings]
  simp only [Op.strEffect]
  rw [Store.applyAll_strings_of_no_touch (setOps_no_touch_front key value tags)]

/-- The collection effect of `set`: each listed tag joins
`tags-by-key:key` and `Tags`, the key joins each listed tag's
`keys-by-tag` set and `CacheKeys`; nothing is ever removed. -/
theorem mem_set_sets (s : Store) (key value : String) (tags : List String)
    (n : SetName) (x : String) :
    x ∈ (set s key value tags).sets n
      ↔ x ∈ s.sets n
        ∨ (n = .tagsByKey key ∧ x ∈ tags)
        ∨ (∃ t ∈ tags, n = .keysByTag t ∧ x = key)
        ∨ (n = .tags ∧ x ∈ tags)
        ∨ (n = .cacheKeys ∧ x = key) := by
  rw [set, Store.mem_applyAll_sets_of_add (setOps_no_removal key value tags)]
  refine or_congr_right ?_
  constructor
  · rintro ⟨op, hop, rfl⟩
    rcases List.mem_append.mp hop with hop | hop
    · rcases List.mem_flatMap.mp hop with ⟨t, ht, hopt⟩
      simp only [List.mem_cons, List.not_mem_nil, or_false] at hopt
      rcases hopt with h | h | h
      · obtain ⟨hn, hx⟩ := Op.sadd.inj h
        subst hn; subst hx
        exact Or.inl ⟨rfl, ht⟩
      · obtain ⟨hn, hx⟩ := Op.sadd.inj h
        subst hn; subst hx
        exact Or.inr (Or.inl ⟨t, ht, rfl, rfl⟩)
      · obtain ⟨hn, hx⟩ := Op.sadd.inj h
        subst hn; subst hx
        exact Or.inr (Or.inr (Or.inl ⟨rfl, ht⟩))
    · simp only [List.mem_cons, List.not_mem_nil, or_false] at hop
      rcases hop with h | h
      · obtain ⟨hn, hx⟩ := Op.sadd.inj h
        subst hn; subst hx
        exact Or.inr (Or.inr (Or.inr ⟨rfl, rfl⟩))
      · cases h
  · rintro (⟨rfl, hx⟩ | ⟨t, ht, rfl, rfl⟩ | ⟨rfl, hx⟩ | ⟨rfl, rfl⟩)
    · exact ⟨Op.sadd (.tagsByKey key) x,
        List.mem_append.mpr (Or.inl (List.mem_flatMap.mpr
          ⟨x, hx, List.mem_cons_self _ _⟩)), rfl⟩
    · exact ⟨Op.sadd (.keysByTag t) x,
        List.mem_append.mpr (Or.inl (List.mem_flatMap.mpr
          ⟨t, ht, List.mem_cons_of_mem _ (List.mem_cons_self _ _)⟩)), rfl⟩
    · exact ⟨Op.sadd .tags x,
        List.mem_append.mpr (Or.inl (List.mem_flatMap.mpr
          ⟨x, hx, List.mem_cons_of_mem _
            (List.mem_cons_of_mem _ (List.mem_cons_self _ _))⟩)), rfl⟩
    · exact ⟨Op.sadd .cacheKeys x,
        List.mem_append.mpr (Or.inr (List.mem_cons_self _ _)), rfl⟩

end TaggedCache

/-! ### Effect of `clear_all` -/

theorem Store.applyAll_strings_no_write {ops : List Op}
    (h : ∀ k v, Op.setStr k v ∉ ops) (s : Store) (k : String) :
    (s.applyAll ops).strings k
      = if Op.delStr k ∈ ops then none else s.strings k := by
  induction ops generalizing s with
  | nil => simp [Store.applyAll]
  | cons op ops ih =>
    rw [Store.applyAll_cons, ih fun k' v hm => h k' v (List.mem_cons_of_mem _ hm)]
    cases op with
    | setStr k' v => exact absurd (List.mem_cons_self _ _) (h k' v)
    | delStr k' =>
      by_cases hk : k = k'
      · subst hk
        simp [Store.apply, Function.update_apply, List.mem_cons, ite_self]
      · have hne : Op.delStr k ≠ Op.delStr k' := fun hc => hk (Op.delStr.inj hc)
        simp [Store.apply, Function.update_apply, List.mem_cons, hk, hne]
    | sadd n m => simp [Store.apply, List.mem_cons]
    | srem n m => simp [Store.apply, List.mem_cons]
    | sdel n => simp [Store.apply, List.mem_cons]

namespace TaggedCache

theorem clearAllOps_no_sadd (s : Store) :
    ∀ op ∈ clearAllOps s, op.isSadd = false := by
  intro op hop
  rcases List.mem_append.mp hop with hop | hop
  · rcases List.mem_append.mp hop with hop | hop
    · rcases List.mem_flatMap.mp hop with ⟨key, _, hopk⟩
      simp only [List.mem_cons, List.not_mem_nil, or_false] at hopk
      rcases hopk with rfl | rfl <;> rfl
    · rcases List.mem_map.mp hop with ⟨t, _, rfl⟩
      rfl
  · simp only [List.mem_cons, List.not_mem_nil, or_false] at hop
    rcases hop with rfl | rfl <;> rfl

theorem clearAllOps_no_setStr (s : Store) :
    ∀ k v, Op.setStr k v ∉ clearAllOps s := by
  intro k v hop
  rcases List.mem_append.mp hop with hop | hop
  · rcases List.mem_append.mp hop with hop | hop
    · rcases List.mem_flatMap.mp hop with ⟨key, _, hopk⟩
      simp only [List.mem_cons, List.not_mem_nil, or_false] at hopk
      rcases hopk with h | h <;> cases h
    · rcases List.mem_map.mp hop with ⟨t, _, h⟩
      cases h
  · simp only [List.mem_cons, List.not_mem_nil, or_false] at hop
    rcases hop with h | h <;> cases h

theorem delStr_mem_clearAllOps {s : Store} {k : String} :
    Op.delStr k ∈ clearAllOps s ↔ k ∈ s.sets .cacheKeys := by
  constructor
  · intro hop
    rcases List.mem_append.mp hop with hop | hop
    · rcases List.mem_append.mp hop with hop | hop
      · rcases List.mem_flatMap.mp hop with ⟨key, hkey, hopk⟩
        simp only [List.mem_cons, List.not_mem_nil, or_false] at hopk
        rcases hopk with h | h
        · exact (Op.delStr.inj h) ▸ (mem_sortedMembers.mp hkey)
        · cases h
      · rcases List.mem_map.mp hop with ⟨t, _, h⟩
        cases h
    · simp only [List.mem_cons, List.not_mem_nil, or_false] at hop
      rcases hop with h | h <;> cases h
  · intro hk
    refine List.mem_append.mpr (Or.inl (List.mem_append.mpr (Or.inl
      (List.mem_flatMap.mpr ⟨k, ?_, List.mem_cons_self _ _⟩))))
    exact mem_sortedMembers.mpr hk

theorem sdel_cacheKeys_mem_clearAllOps (s : Store) :
    Op.sdel .cacheKeys ∈ clearAllOps s :=
  List.mem_append.mpr (Or.inr (List.mem_cons_self _ _))

theorem sdel_tags_mem_clearAllOps (s : Store) :
    Op.sdel .tags ∈ clearAllOps s :=
  List.mem_append.mpr (Or.inr (List.mem_cons_of_mem _ (List.mem_cons_self _ _)))

theorem sdel_tagsByKey_mem_clearAllOps {s : Store} {k : String}
    (hk : k ∈ s.sets .cacheKeys) :
    Op.sdel (.tagsByKey k) ∈ clearAllOps s := by
  refine List.mem_append.mpr (Or.inl (List.mem_append.mpr (Or.inl
    (List.mem_flatMap.mpr ⟨k, ?_, ?_⟩))))
  · exact mem_sortedMembers.mpr hk
  · exact List.mem_cons_of_mem _ (List.mem_cons_self _ _)

theorem sdel_keysByTag_mem_clearAllOps {s : Store} {t : String}
    (ht : t ∈ s.sets .tags) :
    Op.sdel (.keysByTag t) ∈ clearAllOps s := by
  refine List.mem_append.mpr (Or.inl (List.mem_append.mpr (Or.inr
    (List.mem_map.mpr ⟨t, ?_, rfl⟩))))
  exact mem_sortedMembers.mpr ht

/-- The plain-key effect of `clear_all`: every key listed in `CacheKeys`
is deleted, every other plain key survives. -/
theorem clear_all_strings (s : Store) (k : String) :
    (clear_all s).strings k
      = if k ∈ s.sets .cacheKeys then none else s.strings k := by
  rw [clear_all, Store.applyAll_strings_no_write (clearAllOps_no_setStr s)]
  by_cases hk : k ∈ s.sets .cacheKeys <;>
    simp [hk, delStr_mem_clearAllOps]

end TaggedCache

/-! ### States reachable by `set` from the empty store -/

namespace TaggedCache

/-- Every index entry is covered by a root: plain keys and nonempty
`tags-by-key` sets are listed in `CacheKeys`, nonempty `keys-by-tag` sets
in `Tags`.  Holds for the empty store and is preserved by `set`; it is
what makes `clear_all` a full reset. -/
def rootsCover (s : Store) : Prop :=
  (∀ k, s.strings k ≠ none → k ∈ s.sets .cacheKeys)
    ∧ (∀ k, s.sets (.tagsByKey k) ≠ ∅ → k ∈ s.sets .cacheKeys)
    ∧ (∀ t, s.sets (.keysByTag t) ≠ ∅ → t ∈ s.sets .tags)

theorem rootsCover_empty : rootsCover Store.empty :=
  ⟨fun _ h => absurd rfl h, fun _ h => absurd rfl h, fun _ h => absurd rfl h⟩

theorem rootsCover_set {s : Store} (h : rootsCover s)
    (key value : String) (tags : List String) :
    rootsCover (set s key value tags) := by
  obtain ⟨h1, h2, h3⟩ := h
  refine ⟨?_, ?_, ?_⟩
  · intro k hk
    rw [set_strings] at hk
    rw [mem_set_sets]
    by_cases hkey : k = key
    · exact Or.inr (Or.inr (Or.inr (Or.inr ⟨rfl, hkey⟩)))
    · rw [if_neg hkey] at hk
      exact Or.inl (h1 k hk)
  · intro k hk
    obtain ⟨x, hx⟩ := Finset.nonempty_iff_ne_empty.mpr hk
    rw [mem_set_sets] at hx
    rw [mem_set_sets]
    rcases hx with hx | ⟨hn, _⟩ | ⟨t, _, hn, _⟩ | ⟨hn, _⟩ | ⟨hn, _⟩
    · exact Or.inl (h2 k (Finset.ne_empty_of_mem hx))
    · obtain rfl := SetName.tagsByKey.inj hn
      exact Or.inr (Or.inr (Or.inr (Or.inr ⟨rfl, rfl⟩)))
    · cases hn
    · cases hn
    · cases hn
  · intro t ht
    obtain ⟨x, hx⟩ := Finset.nonempty_iff_ne_empty.mpr ht
    rw [mem_set_sets] at hx
    rw [mem_set_sets]
    rcases hx with hx | ⟨hn, _⟩ | ⟨t', ht', hn, _⟩ | ⟨hn, _⟩ | ⟨hn, _⟩
    · exact Or.inl (h3 t (Finset.ne_empty_of_mem hx))
    · cases hn
    · obtain rfl := SetName.keysByTag.inj hn
      exact Or.inr (Or.inr (Or.inr (Or.inl ⟨rfl, ht'⟩)))
    · cases hn
    · cases hn

/-- Under root coverage, `clear_all` leaves the completely empty store. -/
theorem clear_all_eq_empty {s : Store} (h : rootsCover s) :
    clear_all s = Store.empty := by
  obtain ⟨h1, h2, h3⟩ := h
  refine Store.ext' ?_ ?_
  · funext k
    rw [clear_all_strings]
    by_cases hk : k ∈ s.sets .cacheKeys
    · simp [hk, Store.empty]
    · rw [if_neg hk]
      by_contra hne
      exact hk (h1 k fun hcon => hne (hcon.trans rfl))
  · funext n
    refine Finset.eq_empty_iff_forall_not_mem.mpr fun x hx => ?_
    rw [clear_all, Store.mem_applyAll_sets (clearAllOps_no_sadd s)] at hx
    obtain ⟨hxs, hnorem⟩ := hx
    cases n with
    | cacheKeys => exact hnorem _ (sdel_cacheKeys_mem_clearAllOps s) rfl
    | tags => exact hnorem _ (sdel_tags_mem_clearAllOps s) rfl
    | tagsByKey k =>
      exact hnorem _
        (sdel_tagsByKey_mem_clearAllOps (h2 k (Finset.ne_empty_of_mem hxs))) rfl
    | keysByTag t =>
      exact hnorem _
        (sdel_keysByTag_mem_clearAllOps (h3 t (Finset.ne_empty_of_mem hxs))) rfl

/-- A sweep of the empty store is a no-op. -/
theorem gc_empty : gc Store.empty [] [] = Store.empty := rfl

/-- Run a sequence of `set` calls (key, value, tag list), left to right. -/
def runSets (calls : List (String × String × List String)) (s : Store) : Store :=
  calls.foldl (fun acc c => set acc c.1 c.2.1 c.2.2) s

theorem rootsCover_runSets (calls : List (String × String × List String)) :
    rootsCover (runSets calls Store.empty) := by
  suffices h : ∀ s, rootsCover s → rootsCover (runSets calls s) from
    h Store.empty rootsCover_empty
  induction calls with
  | nil => exact fun s hs => hs
  | cons c calls ih =>
    exact fun s hs => ih _ (rootsCover_set hs c.1 c.2.1 c.2.2)

end TaggedCache

/-! ### The sweep scoped to one key -/

namespace TaggedCache

theorem mem_gcCandidateKeys_nil {s : Store} {x : String} :
    x ∈ gcCandidateKeys s [] ↔ x ∈ s.sets .cacheKeys := by
  simp [gcCandidateKeys, Store.smembers, mem_sortedMembers]

theorem mem_gcCandidateTags_nil {s : Store} {x : String} :
    x ∈ gcCandidateTags s [] ↔ x ∈ s.sets .tags := by
  simp [gcCandidateTags, Store.smembers, mem_sortedMembers]

theorem gcCandidateKeys_cons (s : Store) (k : String) (ks : List String) :
    gcCandidateKeys s (k :: ks) = k :: ks := rfl

/-- Scoped sweep, `CacheKeys`: exactly the scoped key is dropped (when its
plain entry is gone). -/
theorem gc1_cacheKeys {s : Store} {k : String} (hk : s.strings k = none) :
    (gc s [k] []).sets .cacheKeys = (s.sets .cacheKeys).erase k := by
  refine Finset.ext fun x => ?_
  rw [mem_gc_cacheKeys, Finset.mem_erase, gcCandidateKeys_cons]
  simp only [List.mem_singleton]
  constructor
  · rintro ⟨hx, hne⟩
    exact ⟨fun hc => hne ⟨hc, hc ▸ hk⟩, hx⟩
  · rintro ⟨hne, hx⟩
    exact ⟨hx, fun hc => hne hc.1⟩

/-- Scoped sweep, `tags-by-key` of the scoped key: deleted. -/
theorem gc1_tagsByKey_self {s : Store} {k : String} (hk : s.strings k = none) :
    (gc s [k] []).sets (.tagsByKey k) = ∅ := by
  refine Finset.eq_empty_iff_forall_not_mem.mpr fun x hx => ?_
  rw [mem_gc_tagsByKey, gcCandidateKeys_cons] at hx
  exact hx.2 ⟨List.mem_singleton.mpr rfl, hk⟩

/-- Scoped sweep, `tags-by-key` of any other key: untouched. -/
theorem gc1_tagsByKey_other {s : Store} {k k' : String} (hne : k' ≠ k) :
    (gc s [k] []).sets (.tagsByKey k') = s.sets (.tagsByKey k') := by
  refine Finset.ext fun x => ?_
  rw [mem_gc_tagsByKey, gcCandidateKeys_cons]
  simp only [List.mem_singleton]
  exact ⟨fun h => h.1, fun h => ⟨h, fun hc => hne hc.1⟩⟩

/-- Scoped sweep, `keys-by-tag`: the scoped key is removed from the sets
of exactly the tags recorded in its `tags-by-key` set. -/
theorem gc1_keysByTag {s : Store} {k : String} (hk : s.strings k = none)
    (t : String) :
    (gc s [k] []).sets (.keysByTag t)
      = if t ∈ s.sets (.tagsByKey k) then (s.sets (.keysByTag t)).erase k
        else s.sets (.keysByTag t) := by
  refine Finset.ext fun x => ?_
  rw [mem_gc_keysByTag, gcCandidateKeys_cons]
  simp only [List.mem_singleton]
  by_cases ht : t ∈ s.sets (.tagsByKey k)
  · rw [if_pos ht, Finset.mem_erase]
    constructor
    · rintro ⟨hx, hne⟩
      exact ⟨fun hc => hne ⟨hc, hc ▸ hk, hc ▸ ht⟩, hx⟩
    · rintro ⟨hne, hx⟩
      exact ⟨hx, fun hc => hne hc.1⟩
  · rw [if_neg ht]
    exact ⟨fun h => h.1, fun h => ⟨h, fun hc => ht (hc.1 ▸ hc.2.2)⟩⟩

/-- Every sweep with defaulted tags reaps exactly the tags whose
`keys-by-tag` set was empty when the sweep started. -/
theorem gc_tags_filter (s : Store) (keys : List String) :
    (gc s keys []).sets .tags
      = (s.sets .tags).filter fun t => s.sets (.keysByTag t) ≠ ∅ := by
  refine Finset.ext fun x => ?_
  rw [mem_gc_tags, Finset.mem_filter]
  constructor
  · rintro ⟨hx, hne⟩
    exact ⟨hx, fun hc => hne ⟨mem_gcCandidateTags_nil.mpr hx, hc⟩⟩
  · rintro ⟨hx, hne⟩
    exact ⟨hx, fun hc => hne hc.2⟩

end TaggedCache

/-! ### The claims -/

/-- C9: for every store state and every choice of the `keys` and `tags`
arguments, `gc` never deletes or overwrites any plain key: every primary
value is unchanged by a sweep, which only edits the index collections. -/
theorem gc_never_touches_primary_entries (s : Store) (keys tags : List String)
    (k : String) :
    (TaggedCache.gc s keys tags).strings k = s.strings k :=
  TaggedCache.gc_strings s keys tags k

/-- C8: for every key whose primary entry is absent, `get` with gc
disabled returns the not-found signal and leaves the entire store state
unchanged. -/
theorem get_nogc_pure (s : Store) (k : String) (h : s.strings k = none) :
    TaggedCache.get s k false = (none, s) := by
  simp [TaggedCache.get, h]

/-- Witness for C8 at the empty store. -/
theorem get_nogc_pure_witness :
    Store.empty.strings "k" = none
      ∧ TaggedCache.get Store.empty "k" false = (none, Store.empty) :=
  ⟨rfl, get_nogc_pure Store.empty "k" rfl⟩

/-- C2: two `set` calls on the same key union the tags and overwrite the
primary value: starting from a state where the key has no tags,
`set(k, v1, [A])` then `set(k, v2, [B])` leaves `get_tags k = {A, B}` and
`get k = v2`. -/
theorem set_accumulates_tags (s : Store) (k v1 v2 A B : String)
    (h : TaggedCache.get_tags s k = ∅) :
    TaggedCache.get_tags
        (TaggedCache.set (TaggedCache.set s k v1 [A]) k v2 [B]) k = {A, B}
      ∧ (TaggedCache.get
          (TaggedCache.set (TaggedCache.set s k v1 [A]) k v2 [B]) k true).fst
          = some v2 := by
  simp only [TaggedCache.get_tags] at h
  constructor
  · refine Finset.ext fun x => ?_
    simp [TaggedCache.get_tags, TaggedCache.mem_set_sets, h]
  · have hv : (TaggedCache.set (TaggedCache.set s k v1 [A]) k v2 [B]).strings k
      = some v2 := by
      rw [TaggedCache.set_strings, if_pos rfl]
    simp [TaggedCache.get, hv]

/-- Witness for C2 at the empty store. -/
theorem set_accumulates_tags_witness :
    TaggedCache.get_tags Store.empty "k" = ∅
      ∧ (TaggedCache.get_tags
          (TaggedCache.set (TaggedCache.set Store.empty "k" "v1" ["A"])
            "k" "v2" ["B"]) "k" = {"A", "B"}
        ∧ (TaggedCache.get
            (TaggedCache.set (TaggedCache.set Store.empty "k" "v1" ["A"])
              "k" "v2" ["B"]) "k" true).fst = some "v2") :=
  ⟨rfl, set_accumulates_tags Store.empty "k" "v1" "v2" "A" "B" rfl⟩

/-- C3 fails as stated: "in any store state" contradicts tag
accumulation.  Setting key `k` with tag list `["B"]` in a state where `k`
already carries tag `"A"` leaves `get_tags k = {"A", "B"}`, not the set
of distinct tags of the list, `{"B"}`. -/
theorem set_exact_tags_any_state_false :
    ¬ TaggedCache.get_tags
        (TaggedCache.set (TaggedCache.set Store.empty "k" "v" ["A"])
          "k" "v" ["B"]) "k" = (["B"] : List String).toFinset := by
  decide

/-- C3 as amended: in any store state, after `set(k, v, tags=T)` the key
`k` is a member of `get_keys t` for every `t ∈ T`; and when `k` had no
previously recorded tags, `get_tags k` is exactly the set of distinct
tags of `T`.  Only the `get_tags` clause needs the fresh-key premise —
the membership clause is unconditional. -/
theorem set_fresh_key_bidirectional (s : Store) (k v : String)
    (T : List String) :
    (∀ t ∈ T, k ∈ TaggedCache.get_keys (TaggedCache.set s k v T) t)
      ∧ (s.sets (.tagsByKey k) = ∅ →
          TaggedCache.get_tags (TaggedCache.set s k v T) k = T.toFinset) := by
  constructor
  · intro t ht
    rw [TaggedCache.get_keys, TaggedCache.mem_set_sets]
    exact Or.inr (Or.inr (Or.inl ⟨t, ht, rfl, rfl⟩))
  · intro h
    refine Finset.ext fun x => ?_
    simp [TaggedCache.get_tags, TaggedCache.mem_set_sets, h]

/-- Witness for the amended C3 at the empty store with two tags,
discharging the fresh-key premise of the `get_tags` clause. -/
theorem set_fresh_key_bidirectional_witness :
    (∀ t ∈ ["A", "B"],
        "k" ∈ TaggedCache.get_keys
          (TaggedCache.set Store.empty "k" "v" ["A", "B"]) t)
      ∧ Store.empty.sets (.tagsByKey "k") = ∅
      ∧ TaggedCache.get_tags (TaggedCache.set Store.empty "k" "v" ["A", "B"])
          "k" = (["A", "B"] : List String).toFinset :=
  ⟨(set_fresh_key_bidirectional Store.empty "k" "v" ["A", "B"]).1, rfl,
    (set_fresh_key_bidirectional Store.empty "k" "v" ["A", "B"]).2 rfl⟩

/-- C4: from the empty store, after `set("P1", v1, ["Post"])`,
`set("P2", v2, ["Post"])` and `clear_tag("Post")`, both `get("P1")` and
`get("P2")` (issued in sequence) return the not-found signal and
`get_keys("Post")` is empty. -/
theorem clear_tag_scenario_invalidates :
    ((TaggedCache.get (TaggedCache.clear_tag
        (TaggedCache.set (TaggedCache.set Store.empty "P1" "v1" ["Post"])
          "P2" "v2" ["Post"]) "Post") "P1" true).fst = none)
    ∧ ((TaggedCache.get (TaggedCache.get (TaggedCache.clear_tag
        (TaggedCache.set (TaggedCache.set Store.empty "P1" "v1" ["Post"])
          "P2" "v2" ["Post"]) "Post") "P1" true).snd "P2" true).fst = none)
    ∧ (TaggedCache.get_keys (TaggedCache.clear_tag
        (TaggedCache.set (TaggedCache.set Store.empty "P1" "v1" ["Post"])
          "P2" "v2" ["Post"]) "Post") "Post" = ∅) := by
  decide

/-- C6: after any sequence of `set` calls starting from the empty store,
`clear_all()` followed by `gc()` leaves the store completely empty: both
root collections and every `tags-by-key` / `keys-by-tag` collection are
gone and no primary entry remains. -/
theorem clear_all_then_gc_full_reset (calls : List (String × String × List String)) :
    TaggedCache.gc (TaggedCache.clear_all (TaggedCache.runSets calls Store.empty))
      [] [] = Store.empty := by
  rw [TaggedCache.clear_all_eq_empty (TaggedCache.rootsCover_runSets calls),
    TaggedCache.gc_empty]

/-- C10: `clear_tag` on a tag whose `keys-by-tag` set is empty or absent
degenerates to a full reconciliation sweep (`keys or []` treats the empty
deleted-keys set like an omitted argument), not a no-op: any orphaned key
anywhere in `CacheKeys` is reaped by it. -/
theorem clear_tag_empty_is_full_sweep (s : Store) (t : String)
    (h : s.sets (.keysByTag t) = ∅) :
    TaggedCache.clear_tag s t = TaggedCache.gc s [] []
      ∧ ∀ k ∈ s.sets .cacheKeys, s.strings k = none →
          k ∉ (TaggedCache.clear_tag s t).sets .cacheKeys := by
  have hsm : s.smembers (.keysByTag t) = [] := by
    rw [Store.smembers, h, sortedMembers_empty]
  have hap : s.applyAll (TaggedCache.clearTagOps s t) = s := by
    rw [TaggedCache.clearTagOps, hsm]
    show s.apply (.sdel (.keysByTag t)) = s
    refine Store.ext' rfl ?_
    show Function.update s.sets (.keysByTag t) ∅ = s.sets
    rw [← h]
    exact Function.update_eq_self _ _
  have heq : TaggedCache.clear_tag s t = TaggedCache.gc s [] [] := by
    rw [TaggedCache.clear_tag, hsm, hap]
  refine ⟨heq, fun k hk hnone hmem => ?_⟩
  rw [heq, TaggedCache.mem_gc_cacheKeys] at hmem
  exact hmem.2 ⟨TaggedCache.mem_gcCandidateKeys_nil.mpr hk, hnone⟩

/-- Witness for C10: a store with an orphaned key `"x"` in `CacheKeys`
and no `keys-by-tag:"t"` set. -/
theorem clear_tag_empty_is_full_sweep_witness :
    (Store.empty.apply (.sadd .cacheKeys "x")).sets (.keysByTag "t") = ∅
      ∧ (TaggedCache.clear_tag (Store.empty.apply (.sadd .cacheKeys "x")) "t"
            = TaggedCache.gc (Store.empty.apply (.sadd .cacheKeys "x")) [] []
        ∧ ∀ k ∈ (Store.empty.apply (.sadd .cacheKeys "x")).sets .cacheKeys,
            (Store.empty.apply (.sadd .cacheKeys "x")).strings k = none →
            k ∉ (TaggedCache.clear_tag
              (Store.empty.apply (.sadd .cacheKeys "x")) "t").sets .cacheKeys) :=
  ⟨by decide,
    clear_tag_empty_is_full_sweep (Store.empty.apply (.sadd .cacheKeys "x")) "t"
      (by decide)⟩

/-- C7 fails as stated: the reconciliation triggered by a `get` miss
passes only `keys=[key]`, so `gc` defaults its `tags` argument to the
whole `Tags` membership and reaps every dead tag — state belonging to
tags unrelated to the key.  Concretely: with `"T"` in `Tags`, an empty
`keys-by-tag:"T"` set, and `"k"` absent, `get "k"` removes `"T"`. -/
theorem get_gc_touches_unrelated_dead_tag :
    (Store.empty.apply (.sadd .tags "T")).strings "k" = none
      ∧ (TaggedCache.get (Store.empty.apply (.sadd .tags "T")) "k" true).snd.sets
            SetName.tags
          ≠ (Store.empty.apply (.sadd .tags "T")).sets SetName.tags := by
  decide

/-- C7 as amended: a `get` miss with gc enabled returns not-found after
running exactly `gc(keys=[key])`; that sweep leaves every primary value
and every other key's index state alone, removes the key from the
`keys-by-tag` sets of precisely its recorded tags — and, in addition,
reaps all dead tags (tags whose `keys-by-tag` set was already empty),
related to the key or not. -/
theorem get_miss_runs_scoped_gc (s : Store) (k : String)
    (h : s.strings k = none) :
    TaggedCache.get s k true = (none, TaggedCache.gc s [k] [])
      ∧ (∀ k', (TaggedCache.gc s [k] []).strings k' = s.strings k')
      ∧ (∀ k', k' ≠ k →
          (TaggedCache.gc s [k] []).sets (.tagsByKey k') = s.sets (.tagsByKey k')
            ∧ ((k' ∈ (TaggedCache.gc s [k] []).sets .cacheKeys)
                ↔ k' ∈ s.sets .cacheKeys))
      ∧ (∀ t, (TaggedCache.gc s [k] []).sets (.keysByTag t)
            = if t ∈ s.sets (.tagsByKey k) then (s.sets (.keysByTag t)).erase k
              else s.sets (.keysByTag t))
      ∧ ((TaggedCache.gc s [k] []).sets .tags
          = (s.sets .tags).filter fun t => s.sets (.keysByTag t) ≠ ∅) := by
  refine ⟨by simp [TaggedCache.get, h], TaggedCache.gc_strings s [k] [],
    fun k' hne => ⟨TaggedCache.gc1_tagsByKey_other hne, ?_⟩,
    TaggedCache.gc1_keysByTag h, TaggedCache.gc_tags_filter s [k]⟩
  rw [TaggedCache.gc1_cacheKeys h, Finset.mem_erase]
  simp [hne]

/-- Witness for the amended C7 at the empty store. -/
theorem get_miss_runs_scoped_gc_witness :
    Store.empty.strings "k" = none
      ∧ (TaggedCache.get Store.empty "k" true
            = (none, TaggedCache.gc Store.empty ["k"] [])
        ∧ (∀ k', (TaggedCache.gc Store.empty ["k"] []).strings k'
              = Store.empty.strings k')
        ∧ (∀ k', k' ≠ "k" →
            (TaggedCache.gc Store.empty ["k"] []).sets (.tagsByKey k')
                = Store.empty.sets (.tagsByKey k')
              ∧ ((k' ∈ (TaggedCache.gc Store.empty ["k"] []).sets .cacheKeys)
                  ↔ k' ∈ Store.empty.sets .cacheKeys))
        ∧ (∀ t, (TaggedCache.gc Store.empty ["k"] []).sets (.keysByTag t)
              = if t ∈ Store.empty.sets (.tagsByKey "k")
                then (Store.empty.sets (.keysByTag t)).erase "k"
                else Store.empty.sets (.keysByTag t))
        ∧ ((TaggedCache.gc Store.empty ["k"] []).sets .tags
            = (Store.empty.sets .tags).filter
                fun t => Store.empty.sets (.keysByTag t) ≠ ∅)) :=
  ⟨rfl, get_miss_runs_scoped_gc Store.empty "k" rfl⟩

/-- C1 fails in its tag clause: the tag sweep decides by an eager `scard`
read taken before the batched removals run, so a tag whose `keys-by-tag`
set is emptied by this very sweep is not removed from `Tags`.
Concretely: `"k"` carries tag `"t"` and has expired; the full sweep
empties `keys-by-tag:"t"` yet leaves `"t"` in `Tags`. -/
theorem gc_full_sweep_claim_false :
    ("k" ∈ ((TaggedCache.set Store.empty "k" "v" ["t"]).apply
        (.delStr "k")).sets (.keysByTag "t"))
      ∧ ((TaggedCache.gc ((TaggedCache.set Store.empty "k" "v" ["t"]).apply
          (.delStr "k")) [] []).sets (.keysByTag "t") = ∅)
      ∧ ("t" ∈ (TaggedCache.gc ((TaggedCache.set Store.empty "k" "v" ["t"]).apply
          (.delStr "k")) [] []).sets SetName.tags) := by
  decide

/-- C1 as amended: the full sweep `gc()` removes exactly the orphaned
keys (members of `CacheKeys` whose plain entry is gone) from `CacheKeys`,
empties their `tags-by-key` sets, and removes them from the
`keys-by-tag` set of each of their recorded tags; it removes from `Tags`
exactly the tags whose `keys-by-tag` set was already empty when the
sweep started (tags emptied by the sweep's own removals wait for a later
sweep); every primary value and all other index state is untouched. -/
theorem gc_full_sweep_characterization (s : Store) :
    (∀ k, (TaggedCache.gc s [] []).strings k = s.strings k)
      ∧ ((TaggedCache.gc s [] []).sets .cacheKeys
          = (s.sets .cacheKeys).filter fun k => s.strings k ≠ none)
      ∧ (∀ k, k ∈ s.sets .cacheKeys → s.strings k = none →
          (TaggedCache.gc s [] []).sets (.tagsByKey k) = ∅)
      ∧ (∀ k, ¬(k ∈ s.sets .cacheKeys ∧ s.strings k = none) →
          (TaggedCache.gc s [] []).sets (.tagsByKey k) = s.sets (.tagsByKey k))
      ∧ (∀ t, (TaggedCache.gc s [] []).sets (.keysByTag t)
          = (s.sets (.keysByTag t)).filter
              fun k => ¬(k ∈ s.sets .cacheKeys ∧ s.strings k = none
                ∧ t ∈ s.sets (.tagsByKey k)))
      ∧ ((TaggedCache.gc s [] []).sets .tags
          = (s.sets .tags).filter fun t => s.sets (.keysByTag t) ≠ ∅) := by
  refine ⟨TaggedCache.gc_strings s [] [], ?_, ?_, ?_, ?_,
    TaggedCache.gc_tags_filter s []⟩
  · refine Finset.ext fun x => ?_
    rw [TaggedCache.mem_gc_cacheKeys, Finset.mem_filter]
    constructor
    · rintro ⟨hx, hne⟩
      exact ⟨hx, fun hc => hne ⟨TaggedCache.mem_gcCandidateKeys_nil.mpr hx, hc⟩⟩
    · rintro ⟨hx, hne⟩
      exact ⟨hx, fun hc => hne hc.2⟩
  · intro k hk hnone
    refine Finset.eq_empty_iff_forall_not_mem.mpr fun x hx => ?_
    rw [TaggedCache.mem_gc_tagsByKey] at hx
    exact hx.2 ⟨TaggedCache.mem_gcCandidateKeys_nil.mpr hk, hnone⟩
  · intro k hcon
    refine Finset.ext fun x => ?_
    rw [TaggedCache.mem_gc_tagsByKey]
    refine ⟨fun h => h.1, fun hx => ⟨hx, fun hc => ?_⟩⟩
    exact hcon ⟨TaggedCache.mem_gcCandidateKeys_nil.mp hc.1, hc.2⟩
  · intro t
    refine Finset.ext fun x => ?_
    rw [TaggedCache.mem_gc_keysByTag, Finset.mem_filter]
    constructor
    · rintro ⟨hx, hne⟩
      exact ⟨hx, fun hc =>
        hne ⟨TaggedCache.mem_gcCandidateKeys_nil.mpr hc.1, hc.2.1, hc.2.2⟩⟩
    · rintro ⟨hx, hne⟩
      exact ⟨hx, fun hc =>
        hne ⟨TaggedCache.mem_gcCandidateKeys_nil.mp hc.1, hc.2.1, hc.2.2⟩⟩

/-- The sweep scoped to one absent key is idempotent provided no tag of
that key had the key as its only member: the second pass would otherwise
also reap the tags deadened by the first pass. -/
theorem TaggedCache.gc1_idem (s : Store) (k : String)
    (hk : s.strings k = none)
    (h : ∀ t ∈ s.sets (.tagsByKey k), s.sets (.keysByTag t) ≠ {k}) :
    TaggedCache.gc (TaggedCache.gc s [k] []) [k] []
      = TaggedCache.gc s [k] [] := by
  have hgk : (TaggedCache.gc s [k] []).strings k = none := by
    rw [TaggedCache.gc_strings]; exact hk
  refine Store.ext'
    (funext fun k' => TaggedCache.gc_strings _ [k] [] k') (funext fun n => ?_)
  cases n with
  | cacheKeys =>
    rw [TaggedCache.gc1_cacheKeys hgk, TaggedCache.gc1_cacheKeys hk,
      Finset.erase_idem]
  | tags =>
    rw [TaggedCache.gc_tags_filter (TaggedCache.gc s [k] []) [k]]
    refine Finset.filter_true_of_mem fun t ht => ?_
    rw [TaggedCache.gc_tags_filter s [k]] at ht
    obtain ⟨hts, htne⟩ := Finset.mem_filter.mp ht
    rw [TaggedCache.gc1_keysByTag hk t]
    by_cases htk : t ∈ s.sets (.tagsByKey k)
    · rw [if_pos htk]
      intro hc
      rcases (Finset.erase_eq_empty_iff _ _).mp hc with hc | hc
      · exact htne hc
      · exact h t htk hc
    · rw [if_neg htk]
      exact htne
  | tagsByKey j =>
    by_cases hj : j = k
    · subst hj
      rw [TaggedCache.gc1_tagsByKey_self hgk, TaggedCache.gc1_tagsByKey_self hk]
    · exact TaggedCache.gc1_tagsByKey_other hj
  | keysByTag t =>
    rw [TaggedCache.gc1_keysByTag hgk t, TaggedCache.gc1_tagsByKey_self hk]
    simp

/-- C5 fails as stated: a second `clear` of the same key is not a no-op.
The first `clear` empties `keys-by-tag:"A"` but cannot remove `"A"` from
`Tags` (its eager `scard` read still saw the key); the second `clear`'s
sweep then reaps `"A"`, so the two end states differ. -/
theorem clear_twice_differs :
    TaggedCache.clear
        (TaggedCache.clear (TaggedCache.set Store.empty "k" "v" ["A"]) "k") "k"
      ≠ TaggedCache.clear (TaggedCache.set Store.empty "k" "v" ["A"]) "k" :=
  fun h =>
    absurd (congrArg (fun st => st.sets SetName.tags) h) (by decide)

/-- C5 as amended: `clear` twice produces no error and equals `clear`
once, provided no tag recorded for the key has that key as the sole
member of its `keys-by-tag` set; otherwise the second call additionally
removes from `Tags` the tags deadened by the first (and deletes their
already-empty sets), which the counterexample exhibits. -/
theorem clear_idempotent_unless_sole_key (s : Store) (k : String)
    (h : ∀ t ∈ s.sets (.tagsByKey k), s.sets (.keysByTag t) ≠ {k}) :
    TaggedCache.clear (TaggedCache.clear s k) k = TaggedCache.clear s k := by
  have hs1k : (s.apply (.delStr k)).strings k = none := by
    show Function.update s.strings k none k = none
    exact Function.update_same k none s.strings
  have hc1k : (TaggedCache.clear s k).strings k = none := by
    rw [TaggedCache.clear, TaggedCache.gc_strings]
    exact hs1k
  have hs2 : (TaggedCache.clear s k).apply (.delStr k) = TaggedCache.clear s k := by
    refine Store.ext' ?_ rfl
    show Function.update (TaggedCache.clear s k).strings k none
      = (TaggedCache.clear s k).strings
    rw [← hc1k]
    exact Function.update_eq_self _ _
  show TaggedCache.gc ((TaggedCache.clear s k).apply (.delStr k)) [k] []
    = TaggedCache.clear s k
  rw [hs2]
  show TaggedCache.gc (TaggedCache.gc (s.apply (.delStr k)) [k] []) [k] []
    = TaggedCache.gc (s.apply (.delStr k)) [k] []
  exact TaggedCache.gc1_idem (s.apply (.delStr k)) k hs1k h

/-- Witness for the amended C5: key `"k"` shares its only tag `"A"` with
another key `"j"`, so clearing `"k"` twice equals clearing it once. -/
theorem clear_idempotent_unless_sole_key_witness :
    (∀ t ∈ (TaggedCache.set (TaggedCache.set Store.empty "k" "v" ["A"])
        "j" "w" ["A"]).sets (.tagsByKey "k"),
        (TaggedCache.set (TaggedCache.set Store.empty "k" "v" ["A"])
          "j" "w" ["A"]).sets (.keysByTag t) ≠ {"k"})
      ∧ TaggedCache.clear
          (TaggedCache.clear (TaggedCache.set
            (TaggedCache.set Store.empty "k" "v" ["A"]) "j" "w" ["A"]) "k") "k"
        = TaggedCache.clear (TaggedCache.set
            (TaggedCache.set Store.empty "k" "v" ["A"]) "j" "w" ["A"]) "k" :=
  ⟨by decide,
    clear_idempotent_unless_sole_key
      (TaggedCache.set (TaggedCache.set Store.empty "k" "v" ["A"])
        "j" "w" ["A"]) "k" (by decide)⟩
